import Mathlib

set_option autoImplicit false

/-!
Verification of the GRASP TSP core (`grasp.py`).

The program operates on:
  * a distance matrix `distancias` (a square table of numbers),
  * tours (`rotas`/`solucao`): lists of city indices,
  * a process-wide pseudo-random generator.

Embedding choices:
  * Distances live in an arbitrary `LinearOrderedRing R` (the Python code only
    adds and compares them); witnesses instantiate `R := ℤ`.
  * The randomness source is an explicit oracle: `random.choice` consumes one
    natural number and picks `lst[r % len(lst)]`; `random.sample(range(n), 2)`
    consumes two naturals encoding a pair of distinct positions.
  * Python's `while` loops become fuel-indexed recursion; for the 2-opt loop a
    fuel of `n! + 1` is proved sufficient (the loop reaches a pass with no
    accepted move), so the fueled function agrees with the Python loop.
  * Out-of-range indexing raises `IndexError` in Python; the model totalizes
    `d[i][j]` and `lst[i]` with a default of `0`.  All claims stay in range.
-/

section Defs

variable {R : Type} [LinearOrderedRing R]

/-- Matrix entry `distancias[i][j]` (default `0` out of range). -/
def mget (d : List (List R)) (i j : ℕ) : R := (d.getD i []).getD j 0

/-- `calcular_custo(rotas, distancias)`:
`custo = 0; for i in range(len(rotas)-1): custo += distancias[rotas[i]][rotas[i+1]]`
then `custo += distancias[rotas[-1]][rotas[0]]`. -/
def calcular_custo (rotas : List ℕ) (d : List (List R)) : R :=
  (List.range (rotas.length - 1)).foldl
    (fun custo i => custo + mget d (rotas.getD i 0) (rotas.getD (i+1) 0)) 0
  + mget d (rotas.getLastD 0) (rotas.headD 0)

/-- One candidate 2-opt move of `busca_local`:
`nova_solucao = melhor[:]; nova_solucao[i:j] = melhor[j-1:i-1:-1]`.
For `1 ≤ i < j` the Python slice `melhor[j-1:i-1:-1]` is the reverse of
`melhor[i:j]`, so the copy equals the input with positions `i..j-1` reversed. -/
def twoOptMove (t : List ℕ) (i j : ℕ) : List ℕ :=
  t.take i ++ ((t.drop i).take (j - i)).reverse ++ t.drop j

/-- The `(i, j)` pairs scanned by one pass of `busca_local`:
`for i in range(1, len(solucao)-2): for j in range(i+1, len(solucao)):`
with `if j - i == 1: continue`, i.e. `i ∈ [1, n-3]`, `j ∈ [i+2, n-1]`. -/
def passPairs (n : ℕ) : List (ℕ × ℕ) :=
  (List.range' 1 (n - 3)).flatMap
    (fun i => (List.range' (i+2) (n - (i+2))).map (fun j => (i, j)))

/-- The body of the inner loops of `busca_local`: state is
`(melhor, melhor_custo, melhorou)`; an improving move is accepted immediately. -/
def passStep (d : List (List R)) (st : List ℕ × R × Bool) (p : ℕ × ℕ) :
    List ℕ × R × Bool :=
  let nova := twoOptMove st.1 p.1 p.2
  let novo := calcular_custo nova d
  if novo < st.2.1 then (nova, novo, true) else st

/-- One full pass of the `for i ... for j ...` double loop, starting with
`melhorou = False`.  `n` is `len(solucao)`, constant across the loop since
every move preserves length. -/
def onePass (d : List (List R)) (n : ℕ) (melhor : List ℕ) (custo : R) :
    List ℕ × R × Bool :=
  (passPairs n).foldl (passStep d) (melhor, custo, false)

/-- The `while melhorou:` loop of `busca_local`, with explicit fuel. -/
def buscaLoop (d : List (List R)) (n : ℕ) : ℕ → List ℕ → R → List ℕ × R
  | 0, melhor, custo => (melhor, custo)
  | (fuel+1), melhor, custo =>
    let r := onePass d n melhor custo
    if r.2.2 then buscaLoop d n fuel r.1 r.2.1 else (r.1, r.2.1)

/-- Fuel that provably suffices for the 2-opt loop: the number of permutations
of the tour plus one (each continuing pass strictly lowers the cost, which
ranges over the finite multiset of permutation costs). -/
def buscaFuel (solucao : List ℕ) : ℕ := solucao.permutations.length + 1

/-- `busca_local(solucao, distancias)`: repeat passes while improved. -/
def busca_local (solucao : List ℕ) (d : List (List R)) : List ℕ :=
  (buscaLoop d solucao.length (buscaFuel solucao) solucao
    (calcular_custo solucao d)).1

/-- `random.choice(lst)`: the oracle value `r` selects `lst[r % len(lst)]`
(any element is selected by some `r`; `random.choice` draws it uniformly). -/
def pick (l : List ℕ) (r : ℕ) : ℕ := l.getD (r % l.length) 0

/-- `int(len(custos) * alpha) + 1` of `construir_solucao`.  Python's `int()`
truncates toward zero; for a rational `alpha` the truncation of
`k * alpha = (k * alpha.num) / alpha.den` is `Int.tdiv` of numerator by
denominator (the denominator is positive). -/
def limite (k : ℕ) (alpha : ℚ) : ℕ :=
  (((k : ℤ) * alpha.num).tdiv (alpha.den : ℤ)).toNat + 1

/-- `custos = [(cidade, distancias[cidade_atual][cidade]) for cidade in nao_visitados]`. -/
def candidatos (d : List (List R)) (atual : ℕ) (nv : List ℕ) : List (ℕ × R) :=
  nv.map (fun cidade => (cidade, mget d atual cidade))

/-- `custos.sort(key=lambda x: x[1])`: stable sort ascending by the distance
component (insertion sort; sortedness and permutation are what the claims
use, and no claim constrains the order of equal-distance ties). -/
def sortCand (l : List (ℕ × R)) : List (ℕ × R) :=
  List.insertionSort (fun a b => a.2 ≤ b.2) l

/-- `rcl = custos[:limite]` after sorting. -/
def rcl (d : List (List R)) (alpha : ℚ) (atual : ℕ) (nv : List ℕ) :
    List (ℕ × R) :=
  (sortCand (candidatos d atual nv)).take (limite (candidatos d atual nv).length alpha)

/-- One iteration of the `while nao_visitados:` loop:
`cidade_escolhida = random.choice(rcl)[0]`. -/
def buildStep (d : List (List R)) (alpha : ℚ) (atual : ℕ) (nv : List ℕ)
    (r : ℕ) : ℕ :=
  pick ((rcl d alpha atual nv).map Prod.fst) r

/-- The `while nao_visitados:` loop of `construir_solucao`; the counter starts
at `len(nao_visitados)` and each iteration removes exactly one city, so the
counter mirrors the `while` guard. -/
def buildLoop (d : List (List R)) (alpha : ℚ) (rnd : ℕ → ℕ) :
    ℕ → ℕ → List ℕ → List ℕ → ℕ → List ℕ
  | 0, _, solucao, _, _ => solucao
  | (k+1), atual, solucao, nv, idx =>
    if nv.isEmpty then solucao else
      let escolhida := buildStep d alpha atual nv (rnd idx)
      buildLoop d alpha rnd k escolhida (solucao ++ [escolhida])
        (nv.erase escolhida) (idx+1)

/-- `construir_solucao(distancias, alpha)`: start at a random city, then
repeatedly choose from the restricted candidate list.  `rnd` is the
randomness oracle, consumed one value per `random.choice` call. -/
def construir_solucao (d : List (List R)) (alpha : ℚ) (rnd : ℕ → ℕ) : List ℕ :=
  let n := d.length
  let inicial := pick (List.range n) (rnd 0)
  buildLoop d alpha rnd (n - 1) inicial [inicial] ((List.range n).erase inicial) 1

/-- First position drawn by `random.sample(range(len(solucao)), 2)`. -/
def swapIdx1 (n r1 : ℕ) : ℕ := r1 % n

/-- Second position drawn by `random.sample` (without replacement, hence
distinct from the first for `n ≥ 2`); the encoding ranges over every
position different from the first as `r2` varies. -/
def swapIdx2 (n r1 r2 : ℕ) : ℕ := (swapIdx1 n r1 + 1 + r2 % (n - 1)) % n

/-- `perturbar(solucao)`: `nova = solucao[:]; i, j = random.sample(...);
nova[i], nova[j] = nova[j], nova[i]` (the right-hand side is read from the
copy before either assignment). -/
def perturbar (solucao : List ℕ) (r1 r2 : ℕ) : List ℕ :=
  let i := swapIdx1 solucao.length r1
  let j := swapIdx2 solucao.length r1 r2
  (solucao.set i (solucao.getD j 0)).set j (solucao.getD i 0)

/-- `custo < melhor_custo` where `melhor_custo` starts at `float("inf")`
(modelled by `none`): any finite cost beats infinity. -/
def ltInf (c : R) (b : Option R) : Bool :=
  match b with
  | none => true
  | some bc => decide (c < bc)

/-- `≤` on recorded best costs, `none` being `float("inf")`. -/
def leInf (a b : Option R) : Bool :=
  match a, b with
  | _, none => true
  | none, some _ => false
  | some x, some y => decide (x ≤ y)

/-- The body of one `grasp` iteration: construct, refine, perturb, refine,
keep the better of the two.  `ir` packages the randomness consumed by this
iteration: a stream for `construir_solucao` and two values for `perturbar`. -/
def graspIter (d : List (List R)) (alpha : ℚ) (ir : (ℕ → ℕ) × ℕ × ℕ) :
    List ℕ × R :=
  let solucao := busca_local (construir_solucao d alpha ir.1) d
  let custo := calcular_custo solucao d
  let solucaoPerturbada := busca_local (perturbar solucao ir.2.1 ir.2.2) d
  let custoPerturbado := calcular_custo solucaoPerturbada d
  if custoPerturbado < custo then (solucaoPerturbada, custoPerturbado)
  else (solucao, custo)

/-- `if custo < melhor_custo: melhor_solucao = solucao; melhor_custo = custo`. -/
def graspUpdate (best : Option (List ℕ) × Option R) (sc : List ℕ × R) :
    Option (List ℕ) × Option R :=
  if ltInf sc.2 best.2 then (some sc.1, some sc.2) else best

/-- The recorded global best after the first `k` iterations of `grasp`
(starting from `melhor_solucao = None`, `melhor_custo = float("inf")`). -/
def bestAfter (d : List (List R)) (alpha : ℚ) (rnds : ℕ → (ℕ → ℕ) × ℕ × ℕ)
    (k : ℕ) : Option (List ℕ) × Option R :=
  (List.range k).foldl (fun best it => graspUpdate best (graspIter d alpha (rnds it)))
    (none, none)

/-- `grasp(distancias, iteracoes, alpha)`: run the fixed iteration budget and
return `(melhor_solucao, melhor_custo)`. -/
def grasp (d : List (List R)) (iteracoes : ℕ) (alpha : ℚ)
    (rnds : ℕ → (ℕ → ℕ) × ℕ × ℕ) : Option (List ℕ) × Option R :=
  (List.range iteracoes).foldl (fun best it => graspUpdate best (graspIter d alpha (rnds it)))
    (none, none)

/-- The invariant carried across the inner double loop of `busca_local`:
relative to the state `(m0, c0, false)` at the start of the pass, the cost
cache is exact, the tour stays a rearrangement with the same first and last
entries, the cost never rises, it rises strictly whenever `melhorou` was set,
and an unset `melhorou` means nothing moved. -/
def StInv (d : List (List R)) (m0 : List ℕ) (c0 : R) (st : List ℕ × R × Bool) : Prop :=
  st.2.1 = calcular_custo st.1 d ∧ st.1.Perm m0 ∧ st.1.head? = m0.head? ∧
    st.1.getLast? = m0.getLast? ∧ st.2.1 ≤ c0 ∧
    (st.2.2 = false → st = (m0, c0, false)) ∧ (st.2.2 = true → st.2.1 < c0)

/-- The costs of all rearrangements of the initial tour: the finite pool of
values the strictly-decreasing cost of the 2-opt loop ranges over. -/
def permCosts (T : List ℕ) (d : List (List R)) : List R :=
  T.permutations.map (fun p => calcular_custo p d)

/-- Termination measure for the `while melhorou:` loop: how many of the
permutation costs lie strictly below the current cost. -/
def mu (T : List ℕ) (d : List (List R)) (c : R) : ℕ :=
  (permCosts T d).countP (fun b => decide (b < c))

/-- Modelled from the spec: the tour obtained by "reversing the contiguous
segment between positions i and j (inclusive)" — the 2-opt edge-reversal
move of the claims, unrestricted (unlike the moves `busca_local` scans). -/
def segmentReversed (t : List ℕ) (i j : ℕ) : List ℕ :=
  t.take i ++ ((t.drop i).take (j + 1 - i)).reverse ++ t.drop (j + 1)

/-- Modelled from the spec: "the sum over consecutive pairs of M[T[i]][T[i+1]]
for i from 0 to n-2, plus the wrap-around term M[T[n-1]][T[0]]". -/
def specTourCost (t : List ℕ) (d : List (List R)) : R :=
  (∑ i ∈ Finset.range (t.length - 1), mget d (t.getD i 0) (t.getD (i+1) 0))
  + mget d (t.getD (t.length - 1) 0) (t.getD 0 0)

/-- All-zeros randomness oracle, used by witnesses. -/
def rnd0 : ℕ → ℕ := fun _ => 0

/-- Per-iteration randomness for `grasp` witnesses: the all-zeros stream for
construction and the pair `(1, 0)` for the perturbation positions. -/
def rnds0 : ℕ → (ℕ → ℕ) × ℕ × ℕ := fun _ => (rnd0, 1, 0)

/-- Concrete 4-city distance matrix for witnesses and counterexamples.  It is
symmetric with zero diagonal, the invariants the spec demands of a
`DistanceMatrix`. -/
def M0 : List (List ℤ) := [[0,1,2,5],[1,0,5,2],[2,5,0,1],[5,2,1,0]]

end Defs

section MoveLemmas

variable {R : Type} [LinearOrderedRing R]

theorem twoOptMove_perm (t : List ℕ) {i j : ℕ} (hij : i ≤ j) :
    (twoOptMove t i j).Perm t := by
  have hdrop : (t.drop i).drop (j - i) = t.drop j := by
    rw [List.drop_drop]
    congr 1
    omega
  have h1 : twoOptMove t i j
      = t.take i ++ (((t.drop i).take (j - i)).reverse ++ t.drop j) := by
    simp [twoOptMove]
  have h3 : t.take i ++ ((t.drop i).take (j - i) ++ t.drop j) = t := by
    rw [← hdrop, List.take_append_drop, List.take_append_drop]
  rw [h1]
  conv_rhs => rw [← h3]
  exact List.Perm.append_left _
    (List.Perm.append (List.reverse_perm _) (List.Perm.refl _))

theorem twoOptMove_length (t : List ℕ) {i j : ℕ} (hij : i ≤ j) :
    (twoOptMove t i j).length = t.length :=
  (twoOptMove_perm t hij).length_eq

theorem twoOptMove_head? (t : List ℕ) {i : ℕ} (j : ℕ) (hi : 1 ≤ i) :
    (twoOptMove t i j).head? = t.head? := by
  cases t with
  | nil => simp [twoOptMove]
  | cons a ts =>
    obtain ⟨i', rfl⟩ : ∃ i', i = i' + 1 := ⟨i - 1, by omega⟩
    simp [twoOptMove, List.take_succ_cons]

theorem getLast?_drop_of_lt {α : Type} (t : List α) {j : ℕ} (hj : j < t.length) :
    (t.drop j).getLast? = t.getLast? := by
  have hne : t.drop j ≠ [] := by
    intro h
    have := List.length_drop j t
    rw [h] at this
    simp at this
    omega
  obtain ⟨b, hb⟩ := Option.ne_none_iff_exists'.mp (mt List.getLast?_eq_none_iff.mp hne)
  conv_rhs => rw [← List.take_append_drop j t]
  rw [List.getLast?_append, hb]
  rfl

theorem twoOptMove_getLast? (t : List ℕ) (i : ℕ) {j : ℕ} (hj : j < t.length) :
    (twoOptMove t i j).getLast? = t.getLast? := by
  have hne : t.drop j ≠ [] := by
    intro h
    have := List.length_drop j t
    rw [h] at this
    simp at this
    omega
  obtain ⟨b, hb⟩ := Option.ne_none_iff_exists'.mp (mt List.getLast?_eq_none_iff.mp hne)
  rw [twoOptMove, List.append_assoc, List.getLast?_append, List.getLast?_append, hb]
  simp [← getLast?_drop_of_lt t hj, hb]

theorem passPairs_bounds {n : ℕ} {p : ℕ × ℕ} (hp : p ∈ passPairs n) :
    1 ≤ p.1 ∧ p.1 < p.2 ∧ p.2 < n := by
  rcases p with ⟨i, j⟩
  simp only [passPairs, List.mem_flatMap, List.mem_map] at hp
  obtain ⟨a, ha, b, hb, hab⟩ := hp
  injection hab with h1 h2
  subst h1
  subst h2
  rw [List.mem_range'_1] at ha hb
  refine ⟨ha.1, by omega, by omega⟩

theorem StInv_init (d : List (List R)) (m0 : List ℕ) (c0 : R)
    (hc : c0 = calcular_custo m0 d) : StInv d m0 c0 (m0, c0, false) :=
  ⟨hc, List.Perm.refl _, rfl, rfl, le_refl _, fun _ => rfl, fun h => by simp at h⟩

theorem StInv_step {d : List (List R)} {m0 : List ℕ} {c0 : R} {n : ℕ}
    (hlen : m0.length = n) {st : List ℕ × R × Bool} {p : ℕ × ℕ}
    (hp : 1 ≤ p.1 ∧ p.1 < p.2 ∧ p.2 < n) (h : StInv d m0 c0 st) :
    StInv d m0 c0 (passStep d st p) := by
  obtain ⟨hc, hperm, hhead, hlast, hle, hfalse, htrue⟩ := h
  by_cases himp : calcular_custo (twoOptMove st.1 p.1 p.2) d < st.2.1
  · have hstep : passStep d st p
        = (twoOptMove st.1 p.1 p.2, calcular_custo (twoOptMove st.1 p.1 p.2) d, true) := by
      simp [passStep, himp]
    have hij : p.1 ≤ p.2 := le_of_lt hp.2.1
    have hjlen : p.2 < st.1.length := by rw [hperm.length_eq, hlen]; exact hp.2.2
    rw [hstep]
    refine ⟨rfl, (twoOptMove_perm st.1 hij).trans hperm, ?_, ?_, ?_, ?_, ?_⟩
    · show (twoOptMove st.1 p.1 p.2).head? = m0.head?
      rw [twoOptMove_head? st.1 p.2 hp.1, hhead]
    · show (twoOptMove st.1 p.1 p.2).getLast? = m0.getLast?
      rw [twoOptMove_getLast? st.1 p.1 hjlen, hlast]
    · exact le_of_lt (lt_of_lt_of_le himp hle)
    · intro hco
      simp at hco
    · intro _
      exact lt_of_lt_of_le himp hle
  · have hstep : passStep d st p = st := by
      simp [passStep, himp]
    rw [hstep]
    exact ⟨hc, hperm, hhead, hlast, hle, hfalse, htrue⟩

theorem StInv_fold {d : List (List R)} {m0 : List ℕ} {c0 : R} {n : ℕ}
    (hlen : m0.length = n) :
    ∀ (ps : List (ℕ × ℕ)) (st : List ℕ × R × Bool),
      (∀ p ∈ ps, 1 ≤ p.1 ∧ p.1 < p.2 ∧ p.2 < n) → StInv d m0 c0 st →
      StInv d m0 c0 (ps.foldl (passStep d) st)
  | [], st, _, h => h
  | p :: ps, st, hps, h =>
    StInv_fold hlen ps (passStep d st p) (fun q hq => hps q (List.mem_cons_of_mem p hq))
      (StInv_step hlen (hps p (List.mem_cons_self p ps)) h)

theorem onePass_inv {d : List (List R)} {m0 : List ℕ} {c0 : R} {n : ℕ}
    (hlen : m0.length = n) (hc : c0 = calcular_custo m0 d) :
    StInv d m0 c0 (onePass d n m0 c0) :=
  StInv_fold hlen (passPairs n) (m0, c0, false) (fun _ hp => passPairs_bounds hp)
    (StInv_init d m0 c0 hc)

end MoveLemmas

section LoopLemmas

variable {R : Type} [LinearOrderedRing R]

theorem buscaLoop_succ (d : List (List R)) (n fuel : ℕ) (m : List ℕ) (c : R) :
    buscaLoop d n (fuel+1) m c
      = if (onePass d n m c).2.2
        then buscaLoop d n fuel (onePass d n m c).1 (onePass d n m c).2.1
        else ((onePass d n m c).1, (onePass d n m c).2.1) := rfl

theorem buscaLoop_chain (d : List (List R)) (n : ℕ) :
    ∀ (fuel : ℕ) (m : List ℕ) (c : R), c = calcular_custo m d → m.length = n →
      (buscaLoop d n fuel m c).2 = calcular_custo (buscaLoop d n fuel m c).1 d ∧
      (buscaLoop d n fuel m c).1.Perm m ∧
      (buscaLoop d n fuel m c).1.head? = m.head? ∧
      (buscaLoop d n fuel m c).1.getLast? = m.getLast? ∧
      (buscaLoop d n fuel m c).2 ≤ c
  | 0, m, c, hc, _ => ⟨hc, List.Perm.refl _, rfl, rfl, le_refl _⟩
  | (fuel+1), m, c, hc, hlen => by
    obtain ⟨hc', hperm', hhead', hlast', hle', hfalse', htrue'⟩ :=
      onePass_inv hlen hc
    rw [buscaLoop_succ]
    by_cases hflag : (onePass d n m c).2.2
    · rw [if_pos hflag]
      obtain ⟨ih1, ih2, ih3, ih4, ih5⟩ :=
        buscaLoop_chain d n fuel (onePass d n m c).1 (onePass d n m c).2.1 hc'
          (by rw [hperm'.length_eq, hlen])
      exact ⟨ih1, ih2.trans hperm', ih3.trans hhead', ih4.trans hlast',
        le_trans ih5 hle'⟩
    · rw [if_neg hflag]
      exact ⟨hc', hperm', hhead', hlast', hle'⟩

theorem passFold_flag_mono (d : List (List R)) :
    ∀ (ps : List (ℕ × ℕ)) (st : List ℕ × R × Bool), st.2.2 = true →
      (ps.foldl (passStep d) st).2.2 = true
  | [], _, h => h
  | p :: ps, st, h => by
    have hstep : (passStep d st p).2.2 = true := by
      by_cases himp : calcular_custo (twoOptMove st.1 p.1 p.2) d < st.2.1
      · simp [passStep, himp]
      · simpa [passStep, himp] using h
    exact passFold_flag_mono d ps (passStep d st p) hstep

theorem passFold_nonimpr (d : List (List R)) :
    ∀ (ps : List (ℕ × ℕ)) (st : List ℕ × R × Bool), st.2.2 = false →
      (ps.foldl (passStep d) st).2.2 = false →
      ps.foldl (passStep d) st = st ∧
        ∀ p ∈ ps, ¬ calcular_custo (twoOptMove st.1 p.1 p.2) d < st.2.1
  | [], st, _, _ => ⟨rfl, by simp⟩
  | p :: ps, st, hst, hfold => by
    by_cases himp : calcular_custo (twoOptMove st.1 p.1 p.2) d < st.2.1
    · exfalso
      have hstep : (passStep d st p).2.2 = true := by simp [passStep, himp]
      have := passFold_flag_mono d ps (passStep d st p) hstep
      rw [List.foldl_cons] at hfold
      rw [hfold] at this
      exact Bool.false_ne_true this
    · have hstep : passStep d st p = st := by simp [passStep, himp]
      rw [List.foldl_cons, hstep] at hfold
      obtain ⟨heq, hall⟩ := passFold_nonimpr d ps st hst hfold
      refine ⟨by rw [List.foldl_cons, hstep, heq], ?_⟩
      intro q hq
      rcases List.mem_cons.mp hq with hq | hq
      · rw [hq]; exact himp
      · exact hall q hq

end LoopLemmas

section Termination

variable {R : Type} [LinearOrderedRing R]

theorem countP_strict_mono {α : Type} {p q : α → Bool}
    (hpq : ∀ x, p x = true → q x = true) :
    ∀ {l : List α} {x : α}, x ∈ l → q x = true → p x = false →
      l.countP p < l.countP q := by
  intro l
  induction l with
  | nil => intro x hx; exact absurd hx (List.not_mem_nil x)
  | cons a t ih =>
    intro x hx hq hp
    have hmono : t.countP p ≤ t.countP q :=
      List.countP_mono_left (fun y _ hy => hpq y hy)
    rcases List.mem_cons.mp hx with rfl | hx
    · rw [List.countP_cons, List.countP_cons, hp, hq]
      simp only [Bool.false_eq_true, if_false, if_true, add_zero]
      omega
    · have hlt := ih hx hq hp
      rw [List.countP_cons, List.countP_cons]
      have : (if p a = true then 1 else 0) ≤ (if q a = true then 1 else 0) := by
        by_cases hpa : p a = true
        · simp [hpa, hpq a hpa]
        · simp [hpa]
      omega

theorem mu_strict_decrease {T : List ℕ} {d : List (List R)} {m' : List ℕ}
    {c c' : R} (hm : m'.Perm T) (hc : c' = calcular_custo m' d) (hlt : c' < c) :
    mu T d c' < mu T d c := by
  have hmem : c' ∈ permCosts T d :=
    List.mem_map.mpr ⟨m', List.mem_permutations.mpr hm, hc.symm⟩
  refine countP_strict_mono (fun b hb => ?_) hmem (decide_eq_true hlt) ?_
  · exact decide_eq_true (lt_trans (of_decide_eq_true hb) hlt)
  · exact decide_eq_false (lt_irrefl c')

theorem buscaLoop_flagfalse (d : List (List R)) (n : ℕ) (T : List ℕ)
    (hn : T.length = n) :
    ∀ (fuel : ℕ) (m : List ℕ) (c : R), c = calcular_custo m d → m.Perm T →
      mu T d c < fuel →
      (onePass d n (buscaLoop d n fuel m c).1 (buscaLoop d n fuel m c).2).2.2 = false
  | 0, m, c, _, _, hfuel => absurd hfuel (by omega)
  | (fuel+1), m, c, hc, hmT, hfuel => by
    have hlen : m.length = n := by rw [hmT.length_eq, hn]
    obtain ⟨hc', hperm', hhead', hlast', hle', hfalse', htrue'⟩ :=
      onePass_inv hlen hc
    rw [buscaLoop_succ]
    by_cases hflag : (onePass d n m c).2.2
    · rw [if_pos hflag]
      have hstrict : (onePass d n m c).2.1 < c := htrue' hflag
      have hmu : mu T d (onePass d n m c).2.1 < fuel := by
        have := mu_strict_decrease (hperm'.trans hmT) hc' hstrict
        omega
      exact buscaLoop_flagfalse d n T hn fuel (onePass d n m c).1
        (onePass d n m c).2.1 hc' (hperm'.trans hmT) hmu
    · rw [if_neg hflag]
      have hst : onePass d n m c = (m, c, false) :=
        hfalse' (Bool.not_eq_true _ ▸ hflag)
      show (onePass d n (onePass d n m c).1 (onePass d n m c).2.1).2.2 = false
      rw [hst]
      rw [Bool.not_eq_true] at hflag
      exact hflag

theorem buscaLoop_fuel_stable (d : List (List R)) (n : ℕ) (T : List ℕ)
    (hn : T.length = n) :
    ∀ (fuel fuel' : ℕ) (m : List ℕ) (c : R), c = calcular_custo m d → m.Perm T →
      mu T d c < fuel → mu T d c < fuel' →
      buscaLoop d n fuel m c = buscaLoop d n fuel' m c
  | 0, _, m, c, _, _, hfuel, _ => absurd hfuel (by omega)
  | (fuel+1), 0, m, c, _, _, _, hfuel' => absurd hfuel' (by omega)
  | (fuel+1), (fuel'+1), m, c, hc, hmT, hfuel, hfuel' => by
    have hlen : m.length = n := by rw [hmT.length_eq, hn]
    obtain ⟨hc', hperm', hhead', hlast', hle', hfalse', htrue'⟩ :=
      onePass_inv hlen hc
    rw [buscaLoop_succ, buscaLoop_succ]
    by_cases hflag : (onePass d n m c).2.2
    · rw [if_pos hflag, if_pos hflag]
      have hstrict : (onePass d n m c).2.1 < c := htrue' hflag
      have hmu := mu_strict_decrease (hperm'.trans hmT) hc' hstrict
      exact buscaLoop_fuel_stable d n T hn fuel fuel' (onePass d n m c).1
        (onePass d n m c).2.1 hc' (hperm'.trans hmT) (by omega) (by omega)
    · rw [if_neg hflag, if_neg hflag]

theorem mu_lt_buscaFuel (T : List ℕ) (d : List (List R)) (c : R) :
    mu T d c < buscaFuel T := by
  have h1 : mu T d c ≤ (permCosts T d).length := List.countP_le_length _
  have h2 : (permCosts T d).length = T.permutations.length := List.length_map _ _
  rw [buscaFuel]
  omega

end Termination

section BuscaLocalFacts

variable {R : Type} [LinearOrderedRing R]

theorem busca_local_props (T : List ℕ) (d : List (List R)) :
    calcular_custo (busca_local T d) d
        = (buscaLoop d T.length (buscaFuel T) T (calcular_custo T d)).2 ∧
      (busca_local T d).Perm T ∧
      (busca_local T d).head? = T.head? ∧
      (busca_local T d).getLast? = T.getLast? ∧
      calcular_custo (busca_local T d) d ≤ calcular_custo T d := by
  obtain ⟨h1, h2, h3, h4, h5⟩ :=
    buscaLoop_chain d T.length (buscaFuel T) T (calcular_custo T d) rfl rfl
  exact ⟨h1.symm, h2, h3, h4, h1.symm ▸ h5⟩

theorem busca_local_pass_false (T : List ℕ) (d : List (List R)) :
    (onePass d T.length (busca_local T d) (calcular_custo (busca_local T d) d)).2.2
      = false := by
  have hc := (busca_local_props T d).1
  rw [hc]
  exact buscaLoop_flagfalse d T.length T rfl (buscaFuel T) T (calcular_custo T d)
    rfl (List.Perm.refl T) (mu_lt_buscaFuel T d _)

theorem busca_local_localopt (T : List ℕ) (d : List (List R)) :
    ∀ p ∈ passPairs T.length,
      ¬ calcular_custo (twoOptMove (busca_local T d) p.1 p.2) d
        < calcular_custo (busca_local T d) d := by
  have hflag := busca_local_pass_false T d
  have := passFold_nonimpr d (passPairs T.length)
    (busca_local T d, calcular_custo (busca_local T d) d, false) rfl hflag
  exact this.2

theorem busca_local_idem (T : List ℕ) (d : List (List R)) :
    busca_local (busca_local T d) d = busca_local T d := by
  have hperm : (busca_local T d).Perm T := (busca_local_props T d).2.1
  have hlen : (busca_local T d).length = T.length := hperm.length_eq
  have hflag := busca_local_pass_false T d
  obtain ⟨-, -, -, -, -, hfalse', -⟩ :=
    onePass_inv hlen (show calcular_custo (busca_local T d) d
      = calcular_custo (busca_local T d) d from rfl)
  have hpass := hfalse' hflag
  show (buscaLoop d (busca_local T d).length (buscaFuel (busca_local T d))
      (busca_local T d) (calcular_custo (busca_local T d) d)).1 = busca_local T d
  rw [hlen]
  simp only [buscaFuel]
  rw [buscaLoop_succ, hpass]
  simp

end BuscaLocalFacts

section LocalSearchClaims

variable {R : Type} [LinearOrderedRing R]

/-- Claim C2: for every tour `T` and distance matrix `M`, the cost of
`local_search(T, M)` is at most the cost of `T`: local search never returns
a tour of strictly greater cost than its input. -/
theorem claim_C2_local_search_never_worsens (T : List ℕ) (d : List (List R)) :
    calcular_custo (busca_local T d) d ≤ calcular_custo T d :=
  (busca_local_props T d).2.2.2.2

/-- Claim C1, refuted as stated: on the symmetric zero-diagonal matrix `M0`,
`busca_local` returns the tour `[0,1,2,3]` unchanged (its only scanned move,
swapping positions 1 and 2, does not improve), yet the 2-opt edge-reversal
move that reverses the contiguous segment of positions 2..3 of the cyclic
tour yields cost 6 < 12.  The returned tour is therefore not a local optimum
over all single 2-opt edge reversals of the cyclic tour. -/
theorem claim_C1_counterexample :
    busca_local [0,1,2,3] M0 = [0,1,2,3] ∧
      segmentReversed (busca_local [0,1,2,3] M0) 2 3 = [0,1,3,2] ∧
      (calcular_custo (segmentReversed (busca_local [0,1,2,3] M0) 2 3) M0 : ℤ)
        < calcular_custo (busca_local [0,1,2,3] M0) M0 := by
  decide

/-- Claim C1 (amended): the tour returned by `local_search` is a local
optimum for the moves the code actually scans — reversals of the segment of
positions `i..j-1` for `1 ≤ i`, `i+2 ≤ j ≤ n-1` (segments lying strictly
inside the position range, never touching position 0, position n-1, or the
wrap-around edge): no such move yields a strictly lower cost. -/
theorem claim_C1_amended_scanned_two_opt_optimum (T : List ℕ)
    (d : List (List R)) (p : ℕ × ℕ) (hp : p ∈ passPairs T.length) :
    calcular_custo (busca_local T d) d
      ≤ calcular_custo (twoOptMove (busca_local T d) p.1 p.2) d :=
  not_lt.mp (busca_local_localopt T d p hp)

/-- Witness for C1 (amended) at the concrete matrix `M0`: the scanned move
`(1,3)` on the returned tour does not improve it. -/
theorem claim_C1_amended_witness :
    (calcular_custo (busca_local [0,1,2,3] M0) M0 : ℤ)
      ≤ calcular_custo (twoOptMove (busca_local [0,1,2,3] M0) 1 3) M0 :=
  claim_C1_amended_scanned_two_opt_optimum [0,1,2,3] M0 (1, 3) (by decide)

/-- Claim C6: the 2-opt loop terminates.  (a) Every accepted move strictly
decreases the current cost (a pass step either leaves the state unchanged or
strictly lowers the cached cost); (b) within the provided fuel bound
(number of permutations of the tour, plus one) the loop reaches a pass that
accepts no move, i.e. it exits via `melhorou = False`; (c) granting the loop
more fuel does not change its result — the `while` loop has converged. -/
theorem claim_C6_two_opt_loop_terminates (T : List ℕ) (d : List (List R)) :
    (∀ (st : List ℕ × R × Bool) (p : ℕ × ℕ),
        passStep d st p = st ∨ (passStep d st p).2.1 < st.2.1) ∧
      (onePass d T.length
          (buscaLoop d T.length (buscaFuel T) T (calcular_custo T d)).1
          (buscaLoop d T.length (buscaFuel T) T (calcular_custo T d)).2).2.2
        = false ∧
      buscaLoop d T.length (buscaFuel T + 1) T (calcular_custo T d)
        = buscaLoop d T.length (buscaFuel T) T (calcular_custo T d) := by
  refine ⟨?_, ?_, ?_⟩
  · intro st p
    by_cases himp : calcular_custo (twoOptMove st.1 p.1 p.2) d < st.2.1
    · right
      have hstep : passStep d st p
          = (twoOptMove st.1 p.1 p.2, calcular_custo (twoOptMove st.1 p.1 p.2) d,
              true) := by
        simp [passStep, himp]
      rw [hstep]
      exact himp
    · left
      simp [passStep, himp]
  · exact buscaLoop_flagfalse d T.length T rfl (buscaFuel T) T (calcular_custo T d)
      rfl (List.Perm.refl T) (mu_lt_buscaFuel T d _)
  · exact buscaLoop_fuel_stable d T.length T rfl (buscaFuel T + 1) (buscaFuel T) T
      (calcular_custo T d) rfl (List.Perm.refl T)
      (lt_trans (mu_lt_buscaFuel T d _) (by omega)) (mu_lt_buscaFuel T d _)

/-- Claim C7: `local_search` is idempotent up to cost — in fact the second
application returns the very same tour, so its cost is unchanged (the second
run's first pass finds zero improving moves and exits at once). -/
theorem claim_C7_local_search_idempotent (T : List ℕ) (d : List (List R)) :
    calcular_custo (busca_local (busca_local T d) d) d
      = calcular_custo (busca_local T d) d := by
  rw [busca_local_idem]

/-- Claim C10: `local_search` preserves the frame of the tour: the output has
the same length, the same city at position 0 and the same city at the last
position as the input (every scanned reversal touches only positions
1..n-2).  The input list itself is never mutated: the code only rebinds
`melhor` to fresh copies, and in this embedding all values are immutable. -/
theorem claim_C10_local_search_preserves_endpoints (T : List ℕ)
    (d : List (List R)) :
    (busca_local T d).head? = T.head? ∧
      (busca_local T d).getLast? = T.getLast? ∧
      (busca_local T d).length = T.length := by
  obtain ⟨-, hperm, hhead, hlast, -⟩ := busca_local_props T d
  exact ⟨hhead, hlast, hperm.length_eq⟩

end LocalSearchClaims

section CostClaims

variable {R : Type} [LinearOrderedRing R]

theorem foldl_add_range (f : ℕ → R) :
    ∀ (n : ℕ) (a : R),
      (List.range n).foldl (fun c i => c + f i) a = a + ∑ i ∈ Finset.range n, f i
  | 0, a => by simp
  | (n+1), a => by
    rw [List.range_succ, List.foldl_append, foldl_add_range f n a,
      Finset.sum_range_succ, List.foldl_cons, List.foldl_nil, add_assoc]

theorem mget_nonneg {d : List (List R)} (hd : ∀ row ∈ d, ∀ x ∈ row, 0 ≤ x)
    (i j : ℕ) : 0 ≤ mget d i j := by
  rw [mget]
  by_cases hi : i < d.length
  · have hrow : d.getD i [] = d[i] := by
      rw [List.getD_eq_getElem?_getD, List.getElem?_eq_getElem hi]
      rfl
    rw [hrow]
    by_cases hj : j < d[i].length
    · have hx : d[i].getD j 0 = d[i][j] := by
        rw [List.getD_eq_getElem?_getD, List.getElem?_eq_getElem hj]
        rfl
      rw [hx]
      exact hd d[i] (List.getElem_mem hi) _ (List.getElem_mem hj)
    · rw [List.getD_eq_default _ _ (by omega)]
  · have hrow : d.getD i [] = [] := List.getD_eq_default _ _ (by omega)
    rw [hrow]
    simp

theorem calcular_custo_eq_spec (t : List ℕ) (d : List (List R)) :
    calcular_custo t d = specTourCost t d := by
  rw [calcular_custo, specTourCost, foldl_add_range, zero_add]
  congr 1
  · congr 1
    · rw [List.getLastD_eq_getLast?, List.getLast?_eq_getElem?,
        List.getD_eq_getElem?_getD]
    · rw [List.headD_eq_head?, List.head?_eq_getElem?, List.getD_eq_getElem?_getD]

/-- Claim C9: `tour_cost` equals the sum over consecutive pairs of
`M[T[i]][T[i+1]]` for `i = 0..n-2` plus the wrap-around term
`M[T[n-1]][T[0]]`, and for a matrix of non-negative entries the result is
non-negative. -/
theorem claim_C9_tour_cost_formula_and_nonneg (t : List ℕ) (d : List (List R))
    (ht : 1 ≤ t.length) (hd : ∀ row ∈ d, ∀ x ∈ row, 0 ≤ x) :
    calcular_custo t d = specTourCost t d ∧ 0 ≤ calcular_custo t d := by
  refine ⟨calcular_custo_eq_spec t d, ?_⟩
  rw [calcular_custo_eq_spec t d, specTourCost]
  exact add_nonneg (Finset.sum_nonneg fun i _ => mget_nonneg hd _ _)
    (mget_nonneg hd _ _)

/-- Witness for C9 on the concrete tour `[0,1,2,3]` and matrix `M0`. -/
theorem claim_C9_witness :
    calcular_custo [0,1,2,3] M0 = specTourCost [0,1,2,3] M0 ∧
      (0 : ℤ) ≤ calcular_custo [0,1,2,3] M0 :=
  claim_C9_tour_cost_formula_and_nonneg [0,1,2,3] M0 (by decide) (by decide)

end CostClaims

section PerturbClaims

theorem swapIdx1_lt (n r1 : ℕ) (hn : 2 ≤ n) : swapIdx1 n r1 < n :=
  Nat.mod_lt _ (by omega)

theorem swapIdx2_lt (n r1 r2 : ℕ) (hn : 2 ≤ n) : swapIdx2 n r1 r2 < n :=
  Nat.mod_lt _ (by omega)

theorem swapIdx_ne (n r1 r2 : ℕ) (hn : 2 ≤ n) :
    swapIdx1 n r1 ≠ swapIdx2 n r1 r2 := by
  have hi : swapIdx1 n r1 < n := swapIdx1_lt n r1 hn
  have hm : r2 % (n - 1) < n - 1 := Nat.mod_lt _ (by omega)
  rw [swapIdx2]
  rcases Nat.lt_or_ge (swapIdx1 n r1 + 1 + r2 % (n - 1)) n with h | h
  · rw [Nat.mod_eq_of_lt h]
    omega
  · rw [Nat.mod_eq_sub_mod h, Nat.mod_eq_of_lt (by omega)]
    omega

theorem swapIdx_surj (n : ℕ) (hn : 2 ≤ n) (a b : ℕ) (ha : a < n) (hb : b < n)
    (hab : a ≠ b) : ∃ s1 s2, swapIdx1 n s1 = a ∧ swapIdx2 n s1 s2 = b := by
  refine ⟨a, if a < b then b - a - 1 else b + n - a - 1, Nat.mod_eq_of_lt ha, ?_⟩
  rw [swapIdx2, swapIdx1, Nat.mod_eq_of_lt ha]
  by_cases hcase : a < b
  · rw [if_pos hcase, Nat.mod_eq_of_lt (show b - a - 1 < n - 1 by omega)]
    have harg : a + 1 + (b - a - 1) = b := by omega
    rw [harg, Nat.mod_eq_of_lt hb]
  · rw [if_neg hcase, Nat.mod_eq_of_lt (show b + n - a - 1 < n - 1 by omega)]
    have harg : a + 1 + (b + n - a - 1) = b + n := by omega
    rw [harg, Nat.add_mod_right, Nat.mod_eq_of_lt hb]

theorem getD_set_same {l : List ℕ} {i : ℕ} (hi : i < l.length) (v : ℕ) :
    (l.set i v).getD i 0 = v := by
  rw [List.getD_eq_getElem?_getD, List.getElem?_set_self hi]
  rfl

theorem getD_set_other {l : List ℕ} {i k : ℕ} (hik : i ≠ k) (v : ℕ) :
    (l.set i v).getD k 0 = l.getD k 0 := by
  rw [List.getD_eq_getElem?_getD, List.getElem?_set_ne hik,
    ← List.getD_eq_getElem?_getD]

/-- Claim C8: for a tour of length at least 2, `perturb` returns a new tour
equal to the input except that the two randomly drawn positions — always
distinct, since `random.sample` draws without replacement — hold each
other's former values; every other position is unchanged, the length is
unchanged, on a duplicate-free tour both drawn positions really change, and
every ordered pair of distinct positions is drawn for some oracle values.
(The input list itself is untouched: the code swaps inside a fresh copy,
and values in this embedding are immutable.) -/
theorem claim_C8_perturb_swaps_two_positions (t : List ℕ) (r1 r2 : ℕ)
    (h2 : 2 ≤ t.length) :
    (swapIdx1 t.length r1 < t.length ∧ swapIdx2 t.length r1 r2 < t.length ∧
        swapIdx1 t.length r1 ≠ swapIdx2 t.length r1 r2) ∧
      (perturbar t r1 r2).length = t.length ∧
      (perturbar t r1 r2).getD (swapIdx1 t.length r1) 0
        = t.getD (swapIdx2 t.length r1 r2) 0 ∧
      (perturbar t r1 r2).getD (swapIdx2 t.length r1 r2) 0
        = t.getD (swapIdx1 t.length r1) 0 ∧
      (∀ k, k ≠ swapIdx1 t.length r1 → k ≠ swapIdx2 t.length r1 r2 →
        (perturbar t r1 r2).getD k 0 = t.getD k 0) ∧
      (t.Nodup →
        (perturbar t r1 r2).getD (swapIdx1 t.length r1) 0
            ≠ t.getD (swapIdx1 t.length r1) 0 ∧
          (perturbar t r1 r2).getD (swapIdx2 t.length r1 r2) 0
            ≠ t.getD (swapIdx2 t.length r1 r2) 0) ∧
      (∀ a b, a < t.length → b < t.length → a ≠ b →
        ∃ s1 s2, swapIdx1 t.length s1 = a ∧ swapIdx2 t.length s1 s2 = b) := by
  set i := swapIdx1 t.length r1 with hidef
  set j := swapIdx2 t.length r1 r2 with hjdef
  have hi : i < t.length := swapIdx1_lt t.length r1 h2
  have hj : j < t.length := swapIdx2_lt t.length r1 r2 h2
  have hij : i ≠ j := swapIdx_ne t.length r1 r2 h2
  have hpert : perturbar t r1 r2 = (t.set i (t.getD j 0)).set j (t.getD i 0) := rfl
  have hlen : (perturbar t r1 r2).length = t.length := by
    rw [hpert, List.length_set, List.length_set]
  have hat_i : (perturbar t r1 r2).getD i 0 = t.getD j 0 := by
    rw [hpert, getD_set_other (Ne.symm hij), getD_set_same hi]
  have hat_j : (perturbar t r1 r2).getD j 0 = t.getD i 0 := by
    rw [hpert, getD_set_same (by rw [List.length_set]; exact hj)]
  have hat_k : ∀ k, k ≠ i → k ≠ j → (perturbar t r1 r2).getD k 0 = t.getD k 0 := by
    intro k hki hkj
    rw [hpert, getD_set_other (fun h => hkj h.symm), getD_set_other (fun h => hki h.symm)]
  refine ⟨⟨hi, hj, hij⟩, hlen, hat_i, hat_j, hat_k, ?_, ?_⟩
  · intro hnd
    have hti : t.getD i 0 = t[i] := by
      rw [List.getD_eq_getElem?_getD, List.getElem?_eq_getElem hi]
      rfl
    have htj : t.getD j 0 = t[j] := by
      rw [List.getD_eq_getElem?_getD, List.getElem?_eq_getElem hj]
      rfl
    have hne : t[i] ≠ t[j] := fun h => hij (hnd.getElem_inj_iff.mp h)
    constructor
    · rw [hat_i, hti, htj]
      exact fun h => hne h.symm
    · rw [hat_j, hti, htj]
      exact hne
  · exact fun a b ha hb hab => swapIdx_surj t.length h2 a b ha hb hab

/-- Witness for C8 at `t = [0,1,2,3]`, `r1 = 1`, `r2 = 0` (positions 1 and 2
are swapped). -/
theorem claim_C8_witness :
    (perturbar [0,1,2,3] 1 0).getD (swapIdx1 4 1) 0 = [0,1,2,3].getD (swapIdx2 4 1 0) 0 ∧
      (perturbar [0,1,2,3] 1 0).getD (swapIdx2 4 1 0) 0 = [0,1,2,3].getD (swapIdx1 4 1) 0 :=
  ⟨(claim_C8_perturb_swaps_two_positions [0,1,2,3] 1 0 (by decide)).2.2.1,
    (claim_C8_perturb_swaps_two_positions [0,1,2,3] 1 0 (by decide)).2.2.2.1⟩

end PerturbClaims

section ConstructionLemmas

variable {R : Type} [LinearOrderedRing R]

theorem pick_mem {l : List ℕ} (hl : l ≠ []) (r : ℕ) : pick l r ∈ l := by
  have hlen : 0 < l.length := List.length_pos.mpr hl
  have hr : r % l.length < l.length := Nat.mod_lt _ hlen
  rw [pick, List.getD_eq_getElem?_getD, List.getElem?_eq_getElem hr]
  exact List.getElem_mem hr

theorem pick_surj {l : List ℕ} {c : ℕ} (hc : c ∈ l) : ∃ r, pick l r = c := by
  obtain ⟨idx, hidx, heq⟩ := List.mem_iff_getElem.mp hc
  refine ⟨idx, ?_⟩
  rw [pick, Nat.mod_eq_of_lt hidx, List.getD_eq_getElem?_getD,
    List.getElem?_eq_getElem hidx]
  exact heq

theorem candidatos_map_fst (d : List (List R)) (atual : ℕ) (nv : List ℕ) :
    (candidatos d atual nv).map Prod.fst = nv := by
  rw [candidatos, List.map_map]
  exact List.map_id nv

theorem sortCand_perm (l : List (ℕ × R)) : (sortCand l).Perm l :=
  List.perm_insertionSort _ l

theorem sortCand_sorted (l : List (ℕ × R)) :
    List.Sorted (fun a b : ℕ × R => a.2 ≤ b.2) (sortCand l) :=
  @List.sorted_insertionSort (ℕ × R) (fun a b : ℕ × R => a.2 ≤ b.2) _
    ⟨fun a b => le_total a.2 b.2⟩ ⟨fun _ _ _ hab hbc => le_trans hab hbc⟩ l

theorem limite_pos (k : ℕ) (alpha : ℚ) : 1 ≤ limite k alpha := by
  rw [limite]
  omega

theorem rcl_ne_nil {d : List (List R)} {alpha : ℚ} {atual : ℕ} {nv : List ℕ}
    (hnv : nv ≠ []) : rcl d alpha atual nv ≠ [] := by
  have hcand : (candidatos d atual nv).length = nv.length := List.length_map _ _
  have hs : (sortCand (candidatos d atual nv)).length = nv.length := by
    rw [(sortCand_perm (candidatos d atual nv)).length_eq, hcand]
  have hnvlen : 0 < nv.length := List.length_pos.mpr hnv
  have hlen : 0 < (rcl d alpha atual nv).length := by
    rw [rcl, List.length_take, hs]
    have := limite_pos (candidatos d atual nv).length alpha
    omega
  exact List.length_pos.mp hlen

theorem buildStep_mem {d : List (List R)} {alpha : ℚ} {atual : ℕ} {nv : List ℕ}
    (hnv : nv ≠ []) (r : ℕ) : buildStep d alpha atual nv r ∈ nv := by
  have hne : (rcl d alpha atual nv).map Prod.fst ≠ [] := by
    intro h
    exact rcl_ne_nil hnv (List.map_eq_nil_iff.mp h)
  have hmem := pick_mem hne r
  rw [buildStep]
  obtain ⟨pr, hpr, heq⟩ := List.mem_map.mp hmem
  have hpr2 : pr ∈ sortCand (candidatos d atual nv) := List.take_subset _ _ hpr
  have hpr3 : pr ∈ candidatos d atual nv :=
    (sortCand_perm (candidatos d atual nv)).mem_iff.mp hpr2
  obtain ⟨c, hc, hceq⟩ := List.mem_map.mp hpr3
  rw [← heq, ← hceq]
  exact hc

theorem buildLoop_succ (d : List (List R)) (alpha : ℚ) (rnd : ℕ → ℕ) (k atual : ℕ)
    (solucao nv : List ℕ) (idx : ℕ) :
    buildLoop d alpha rnd (k+1) atual solucao nv idx
      = if nv.isEmpty then solucao
        else buildLoop d alpha rnd k (buildStep d alpha atual nv (rnd idx))
          (solucao ++ [buildStep d alpha atual nv (rnd idx)])
          (nv.erase (buildStep d alpha atual nv (rnd idx))) (idx+1) := rfl

theorem buildLoop_perm (d : List (List R)) (alpha : ℚ) (rnd : ℕ → ℕ)
    (L : List ℕ) :
    ∀ (k atual : ℕ) (sol nv : List ℕ) (idx : ℕ), nv.length = k →
      (sol ++ nv).Perm L → (buildLoop d alpha rnd k atual sol nv idx).Perm L
  | 0, _, sol, nv, _, hk, hperm => by
    have hnil : nv = [] := List.length_eq_zero.mp hk
    subst hnil
    simpa using hperm
  | (k+1), atual, sol, nv, idx, hk, hperm => by
    have hnv : nv ≠ [] := by
      intro h
      rw [h] at hk
      simp at hk
    have hne : ¬ nv.isEmpty = true := by
      simpa [List.isEmpty_iff] using hnv
    rw [buildLoop_succ, if_neg hne]
    have he : buildStep d alpha atual nv (rnd idx) ∈ nv := buildStep_mem hnv _
    apply buildLoop_perm d alpha rnd L k _ _ _ _
    · rw [List.length_erase_of_mem he, hk]
      omega
    · have hsplit : (sol ++ [buildStep d alpha atual nv (rnd idx)])
          ++ nv.erase (buildStep d alpha atual nv (rnd idx))
          = sol ++ (buildStep d alpha atual nv (rnd idx)
              :: nv.erase (buildStep d alpha atual nv (rnd idx))) := by
        simp
      rw [hsplit]
      exact (List.Perm.append_left sol (List.perm_cons_erase he).symm).trans hperm

theorem construir_solucao_perm (d : List (List R)) (alpha : ℚ) (rnd : ℕ → ℕ)
    (hn : 1 ≤ d.length) :
    (construir_solucao d alpha rnd).Perm (List.range d.length) := by
  have hrange : (List.range d.length) ≠ [] := by
    intro h
    have := List.length_range d.length
    rw [h] at this
    simp at this
    omega
  have hin : pick (List.range d.length) (rnd 0) ∈ List.range d.length :=
    pick_mem hrange _
  show (buildLoop d alpha rnd (d.length - 1) _ _ _ _).Perm (List.range d.length)
  apply buildLoop_perm
  · rw [List.length_erase_of_mem hin, List.length_range]
  · rw [List.singleton_append]
    exact (List.perm_cons_erase hin).symm

end ConstructionLemmas

section ConstructionClaims

variable {R : Type} [LinearOrderedRing R]

theorem limite_eq_floor (k : ℕ) (alpha : ℚ) (h : 0 ≤ alpha) :
    limite k alpha = (⌊(k : ℚ) * alpha⌋).toNat + 1 := by
  have hnum : 0 ≤ alpha.num := Rat.num_nonneg.mpr h
  have key : (k : ℚ) * alpha = (((k : ℤ) * alpha.num : ℤ) : ℚ) / ((alpha.den : ℕ) : ℚ) := by
    conv_lhs => rw [← Rat.num_div_den alpha]
    push_cast
    ring
  rw [limite, Int.tdiv_eq_ediv (by positivity) (by positivity), key,
    Rat.floor_intCast_div_natCast]

/-- Claim C3: for every distance matrix with at least one city and every
`alpha` and randomness oracle, the tour built by `construir_solucao` is a
permutation of `0..n-1`: it has length `n`, has no duplicates, and omits no
index.  (No upper or lower bound on `alpha` is even needed: the `+ 1` keeps
the restricted candidate list non-empty for any `alpha`.) -/
theorem claim_C3_construction_builds_permutation (d : List (List R))
    (alpha : ℚ) (rnd : ℕ → ℕ) (hn : 1 ≤ d.length) :
    (construir_solucao d alpha rnd).length = d.length ∧
      (construir_solucao d alpha rnd).Nodup ∧
      (∀ i, i < d.length → i ∈ construir_solucao d alpha rnd) ∧
      (construir_solucao d alpha rnd).Perm (List.range d.length) := by
  have hperm := construir_solucao_perm d alpha rnd hn
  refine ⟨?_, ?_, ?_, hperm⟩
  · rw [hperm.length_eq, List.length_range]
  · exact hperm.nodup_iff.mpr (List.nodup_range d.length)
  · intro i hi
    exact hperm.mem_iff.mpr (List.mem_range.mpr hi)

/-- Witness for C3 on the 4-city matrix `M0` with a greedy `alpha = 0` and
the all-zeros oracle. -/
theorem claim_C3_witness :
    (construir_solucao M0 0 rnd0).length = M0.length ∧
      (construir_solucao M0 0 rnd0).Nodup :=
  ⟨(claim_C3_construction_builds_permutation M0 0 rnd0 (by decide)).1,
    (claim_C3_construction_builds_permutation M0 0 rnd0 (by decide)).2.1⟩

/-- Claim C4: at each construction step (current city `atual`, non-empty
unvisited list `nv`, `0 ≤ alpha ≤ 1`), the candidate list is sorted
ascending by distance from the current city; the restricted candidate list
is exactly the first `floor(k * alpha) + 1` entries of it, `k` being the
number of unvisited cities; the chosen city always lies in the RCL and every
RCL city is chosen for some oracle value (`random.choice` draws uniformly);
`alpha = 0` gives an RCL of exactly one city, a nearest unvisited one, and
`alpha = 1` gives an RCL containing all unvisited cities. -/
theorem claim_C4_rcl_structure (d : List (List R)) (alpha : ℚ) (atual : ℕ)
    (nv : List ℕ) (r : ℕ) (hnv : nv ≠ []) (h0 : 0 ≤ alpha) (h1 : alpha ≤ 1) :
    List.Sorted (fun a b : ℕ × R => a.2 ≤ b.2) (sortCand (candidatos d atual nv)) ∧
      (sortCand (candidatos d atual nv)).Perm (candidatos d atual nv) ∧
      rcl d alpha atual nv
        = (sortCand (candidatos d atual nv)).take
            ((⌊(nv.length : ℚ) * alpha⌋).toNat + 1) ∧
      buildStep d alpha atual nv r ∈ (rcl d alpha atual nv).map Prod.fst ∧
      (∀ c ∈ (rcl d alpha atual nv).map Prod.fst,
        ∃ q, buildStep d alpha atual nv q = c) ∧
      (alpha = 0 → (rcl d alpha atual nv).length = 1 ∧
        ∀ pr ∈ candidatos d atual nv,
          ((rcl d alpha atual nv).headD (0, 0)).2 ≤ pr.2) ∧
      (alpha = 1 → rcl d alpha atual nv = sortCand (candidatos d atual nv)) := by
  have hcandlen : (candidatos d atual nv).length = nv.length := List.length_map _ _
  have hslen : (sortCand (candidatos d atual nv)).length = nv.length := by
    rw [(sortCand_perm (candidatos d atual nv)).length_eq, hcandlen]
  have hnvpos : 0 < nv.length := List.length_pos.mpr hnv
  refine ⟨sortCand_sorted _, sortCand_perm _, ?_, ?_, ?_, ?_, ?_⟩
  · rw [rcl, hcandlen, limite_eq_floor _ _ h0]
  · have hne : (rcl d alpha atual nv).map Prod.fst ≠ [] := by
      intro h
      exact rcl_ne_nil hnv (List.map_eq_nil_iff.mp h)
    rw [buildStep]
    exact pick_mem hne r
  · intro c hc
    exact pick_surj hc
  · intro ha
    subst ha
    have hlim : limite (candidatos d atual nv).length 0 = 1 := by
      rw [limite_eq_floor _ _ le_rfl, mul_zero, Int.floor_zero, Int.toNat_zero]
    have hrcl : rcl d 0 atual nv
        = (sortCand (candidatos d atual nv)).take 1 := by
      rw [rcl, hlim]
    constructor
    · rw [hrcl, List.length_take, hslen]
      omega
    · intro pr hpr
      have hpr' : pr ∈ sortCand (candidatos d atual nv) :=
        (sortCand_perm (candidatos d atual nv)).mem_iff.mpr hpr
      rcases hsort : sortCand (candidatos d atual nv) with _ | ⟨hd, tl⟩
      · rw [hsort] at hpr'
        exact absurd hpr' (List.not_mem_nil pr)
      · rw [hsort] at hpr'
        have hsorted := sortCand_sorted (candidatos d atual nv)
        rw [hsort, List.sorted_cons] at hsorted
        rw [hrcl, hsort]
        have hhd : (((hd :: tl).take 1).headD ((0 : ℕ), (0 : R))) = hd := rfl
        rw [hhd]
        rcases List.mem_cons.mp hpr' with rfl | hmem
        · exact le_refl _
        · exact hsorted.1 pr hmem
  · intro ha
    subst ha
    have hlim : limite (candidatos d atual nv).length 1 = nv.length + 1 := by
      rw [limite_eq_floor _ _ zero_le_one, mul_one, hcandlen, Int.floor_natCast,
        Int.toNat_natCast]
    rw [rcl, hlim]
    exact List.take_of_length_le (by omega)

/-- Witness for C4 at `M0`, `alpha = 0`, current city 0, unvisited `[1,2,3]`:
the chosen city is in the RCL and the RCL has exactly one entry. -/
theorem claim_C4_witness :
    buildStep M0 0 0 [1,2,3] 0 ∈ (rcl M0 0 0 [1,2,3]).map Prod.fst ∧
      (rcl M0 0 0 [1,2,3]).length = 1 :=
  ⟨(claim_C4_rcl_structure M0 0 0 [1,2,3] 0 (by decide) (by decide) (by decide)).2.2.2.1,
    ((claim_C4_rcl_structure M0 0 0 [1,2,3] 0 (by decide) (by decide) (by decide)).2.2.2.2.2.1
      rfl).1⟩

end ConstructionClaims

section GraspClaims

variable {R : Type} [LinearOrderedRing R]

theorem leInf_refl (a : Option R) : leInf a a = true := by
  cases a <;> simp [leInf]

theorem leInf_trans {a b c : Option R} (hab : leInf a b = true)
    (hbc : leInf b c = true) : leInf a c = true := by
  cases a <;> cases b <;> cases c <;> simp [leInf] at * <;> exact le_trans hab hbc

theorem graspUpdate_le (best : Option (List ℕ) × Option R) (sc : List ℕ × R) :
    leInf (graspUpdate best sc).2 best.2 = true := by
  rw [graspUpdate]
  by_cases h : ltInf sc.2 best.2 = true
  · rw [if_pos h]
    cases hb : best.2 with
    | none => simp [leInf]
    | some bc =>
      rw [hb] at h
      simp only [ltInf, decide_eq_true_eq] at h
      simp [leInf, le_of_lt h]
  · rw [if_neg h]
    exact leInf_refl _

theorem bestAfter_succ (d : List (List R)) (alpha : ℚ)
    (rnds : ℕ → (ℕ → ℕ) × ℕ × ℕ) (k : ℕ) :
    bestAfter d alpha rnds (k+1)
      = graspUpdate (bestAfter d alpha rnds k) (graspIter d alpha (rnds k)) := by
  rw [bestAfter, bestAfter, List.range_succ, List.foldl_append, List.foldl_cons,
    List.foldl_nil]

theorem bestAfter_mono (d : List (List R)) (alpha : ℚ)
    (rnds : ℕ → (ℕ → ℕ) × ℕ × ℕ) {j k : ℕ} (hjk : j ≤ k) :
    leInf (bestAfter d alpha rnds k).2 (bestAfter d alpha rnds j).2 = true := by
  induction k with
  | zero =>
    obtain rfl : j = 0 := by omega
    exact leInf_refl _
  | succ k ih =>
    rcases Nat.lt_or_ge j (k+1) with h | h
    · have hk : leInf (bestAfter d alpha rnds (k+1)).2 (bestAfter d alpha rnds k).2
          = true := by
        rw [bestAfter_succ]
        exact graspUpdate_le _ _
      exact leInf_trans hk (ih (by omega))
    · obtain rfl : j = k + 1 := by omega
      exact leInf_refl _

/-- Claim C5: across `grasp` iterations the recorded best is replaced only
when the iteration's cost is strictly below the recorded best cost (with the
initial `float("inf")` record beaten by any finite cost); consequently the
recorded best cost is monotonically non-increasing; and `grasp` returns
exactly the record after the full iteration budget has run. -/
theorem claim_C5_global_best_monotone (d : List (List R)) (alpha : ℚ)
    (rnds : ℕ → (ℕ → ℕ) × ℕ × ℕ) :
    (∀ j k, j ≤ k →
        leInf (bestAfter d alpha rnds k).2 (bestAfter d alpha rnds j).2 = true) ∧
      (∀ k, bestAfter d alpha rnds (k+1) = bestAfter d alpha rnds k ∨
        (ltInf (graspIter d alpha (rnds k)).2 (bestAfter d alpha rnds k).2 = true ∧
          bestAfter d alpha rnds (k+1)
            = (some (graspIter d alpha (rnds k)).1,
                some (graspIter d alpha (rnds k)).2))) ∧
      (∀ iteracoes, grasp d iteracoes alpha rnds = bestAfter d alpha rnds iteracoes) := by
  refine ⟨fun j k hjk => bestAfter_mono d alpha rnds hjk, fun k => ?_, fun _ => rfl⟩
  rw [bestAfter_succ, graspUpdate]
  by_cases h : ltInf (graspIter d alpha (rnds k)).2 (bestAfter d alpha rnds k).2 = true
  · rw [if_pos h]
    exact Or.inr ⟨h, rfl⟩
  · rw [if_neg h]
    exact Or.inl rfl

/-- Witness for C5 on `M0` with one and two iterations of the concrete
oracle: the recorded best cost after two iterations is no worse than after
one, and `grasp` with a two-iteration budget returns the recorded pair. -/
theorem claim_C5_witness :
    leInf (bestAfter M0 0 rnds0 2).2 (bestAfter M0 0 rnds0 1).2 = true ∧
      grasp M0 2 0 rnds0 = bestAfter M0 0 rnds0 2 :=
  ⟨(claim_C5_global_best_monotone M0 0 rnds0).1 1 2 (by omega),
    (claim_C5_global_best_monotone M0 0 rnds0).2.2 2⟩

end GraspClaims





